import Mathlib

set_option maxRecDepth 100000
set_option maxHeartbeats 1000000

/-!
# Verification of the `merkling` Merkle-tree library

A shallow embedding of `src/main.rs`: byte strings are `List Nat` (each entry
a byte value), SHA-256 is implemented over them following FIPS 180-4 (the
`sha2` crate the code calls), and the tree builder, proof generator and proof
verifier are translated function by function from the Rust source.
-/

namespace Merkling

/-! ## SHA-256 over byte lists (the `sha2` crate's `Sha256`) -/

/-- The word modulus `2^32` for SHA-256 arithmetic. -/
def w32 : Nat := 4294967296

/-- Addition modulo `2^32`. -/
def add32 (a b : Nat) : Nat := (a + b) % w32

/-- Right-rotation of a 32-bit word by `n` places. -/
def rotr32 (n x : Nat) : Nat := (x >>> n) ||| ((x <<< (32 - n)) % w32)

/-- Bitwise complement of a 32-bit word. -/
def not32 (x : Nat) : Nat := x ^^^ (w32 - 1)

/-- SHA-256 `Ch(x,y,z)`. -/
def ch32 (x y z : Nat) : Nat := (x &&& y) ^^^ (not32 x &&& z)

/-- SHA-256 `Maj(x,y,z)`. -/
def maj32 (x y z : Nat) : Nat := (x &&& y) ^^^ (x &&& z) ^^^ (y &&& z)

/-- SHA-256 `Σ₀`. -/
def bsig0 (x : Nat) : Nat := rotr32 2 x ^^^ rotr32 13 x ^^^ rotr32 22 x

/-- SHA-256 `Σ₁`. -/
def bsig1 (x : Nat) : Nat := rotr32 6 x ^^^ rotr32 11 x ^^^ rotr32 25 x

/-- SHA-256 `σ₀`. -/
def ssig0 (x : Nat) : Nat := rotr32 7 x ^^^ rotr32 18 x ^^^ (x >>> 3)

/-- SHA-256 `σ₁`. -/
def ssig1 (x : Nat) : Nat := rotr32 17 x ^^^ rotr32 19 x ^^^ (x >>> 10)

/-- The eight SHA-256 initial hash values (FIPS 180-4 §5.3.3), written in
decimal. -/
def initState : List Nat :=
  [1779033703, 3144134277, 1013904242,
   2773480762, 1359893119, 2600822924,
   528734635, 1541459225]

/-- The 64 SHA-256 round constants (FIPS 180-4 §4.2.2), written in
decimal. -/
def kConst : List Nat :=
  [1116352408, 1899447441, 3049323471,
   3921009573, 961987163, 1508970993,
   2453635748, 2870763221, 3624381080,
   310598401, 607225278, 1426881987,
   1925078388, 2162078206, 2614888103,
   3248222580, 3835390401, 4022224774,
   264347078, 604807628, 770255983,
   1249150122, 1555081692, 1996064986,
   2554220882, 2821834349, 2952996808,
   3210313671, 3336571891, 3584528711,
   113926993, 338241895, 666307205,
   773529912, 1294757372, 1396182291,
   1695183700, 1986661051, 2177026350,
   2456956037, 2730485921, 2820302411,
   3259730800, 3345764771, 3516065817,
   3600352804, 4094571909, 275423344,
   430227734, 506948616, 659060556,
   883997877, 958139571, 1322822218,
   1537002063, 1747873779, 1955562222,
   2024104815, 2227730452, 2361852424,
   2428436474, 2756734187, 3204031479,
   3329325298]

/-- Group bytes into 32-bit words, big-endian, four bytes per word. -/
def bytesToWords : List Nat → List Nat
  | b0 :: b1 :: b2 :: b3 :: rest =>
      (b0 * 0x1000000 + b1 * 0x10000 + b2 * 0x100 + b3) :: bytesToWords rest
  | _ => []

/-- Big-endian 4-byte serialization of a 32-bit word. -/
def u32beBytes (x : Nat) : List Nat :=
  [(x >>> 24) % 256, (x >>> 16) % 256, (x >>> 8) % 256, x % 256]

/-- Big-endian 8-byte serialization of a 64-bit value. -/
def u64beBytes (x : Nat) : List Nat :=
  [(x >>> 56) % 256, (x >>> 48) % 256, (x >>> 40) % 256, (x >>> 32) % 256,
   (x >>> 24) % 256, (x >>> 16) % 256, (x >>> 8) % 256, x % 256]

/-- SHA-256 message padding (FIPS 180-4 §5.1.1): append `0x80`, then zero
bytes, then the 64-bit big-endian bit length, reaching a multiple of 64
bytes. -/
def padBytes (msg : List Nat) : List Nat :=
  let len := msg.length
  let zeros := (64 - (len + 9) % 64) % 64
  msg ++ [0x80] ++ List.replicate zeros 0 ++ u64beBytes (8 * len)

/-- Extend a message schedule by `fuel` further words
(`w[t] = σ₁(w[t-2]) + w[t-7] + σ₀(w[t-15]) + w[t-16]`). -/
def extendSchedule (w : List Nat) : Nat → List Nat
  | 0 => w
  | fuel + 1 =>
      let n := w.length
      let next :=
        add32 (add32 (ssig1 (w.getD (n - 2) 0)) (w.getD (n - 7) 0))
              (add32 (ssig0 (w.getD (n - 15) 0)) (w.getD (n - 16) 0))
      extendSchedule (w ++ [next]) fuel

/-- One SHA-256 round on the eight-word working state. -/
def roundStep (kt wt : Nat) (st : List Nat) : List Nat :=
  match st with
  | [a, b, c, d, e, f, g, h] =>
      let t1 := add32 h (add32 (bsig1 e) (add32 (ch32 e f g) (add32 kt wt)))
      let t2 := add32 (bsig0 a) (maj32 a b c)
      [add32 t1 t2, a, b, c, add32 d t1, e, f, g]
  | other => other

/-- Run the rounds, consuming one round constant and one schedule word each. -/
def roundsGo : List Nat → List Nat → List Nat → List Nat
  | [], _, st => st
  | _ :: _, [], st => st
  | kt :: ks, wt :: ws, st => roundsGo ks ws (roundStep kt wt st)

/-- Compress one 64-byte block into the eight-word state. -/
def sha256Compress (st : List Nat) (block : List Nat) : List Nat :=
  let w := extendSchedule (bytesToWords block) 48
  let st2 := roundsGo kConst w st
  List.zipWith add32 st st2

/-- Compress `fuel` successive 64-byte blocks of `bytes`. -/
def compressBlocks (fuel : Nat) (st : List Nat) (bytes : List Nat) : List Nat :=
  match fuel with
  | 0 => st
  | f + 1 => compressBlocks f (sha256Compress st (bytes.take 64)) (bytes.drop 64)

/-- SHA-256 of a byte list: pad, compress block by block, serialize the final
state big-endian. -/
def sha256 (msg : List Nat) : List Nat :=
  let p := padBytes msg
  let st := compressBlocks (p.length / 64) initState p
  List.flatten (st.map u32beBytes)

/-! ## The data model (`Node`, `MerkleTree`, `MerkleTreeError`) -/

/-- Rust `enum Node`: a leaf holding a digest, or an internal vertex holding its
digest and its two children. -/
inductive Node where
  | leaf (hash : List Nat)
  | internal (hash : List Nat) (left : Node) (right : Node)
deriving DecidableEq, Repr

/-- Rust `Node::hash_data`: SHA-256 of the bytes. -/
def hash_data (data : List Nat) : List Nat := sha256 data

/-- Rust `Node::get_hash`: the digest stored at the root of a node. -/
def Node.get_hash : Node → List Nat
  | .leaf h => h
  | .internal h _ _ => h

/-- Rust `Node::default`: the padding node, a leaf whose hash is the raw all-zero
32-byte vector (`vec![0; 32]`). -/
def defaultNode : Node := .leaf (List.replicate 32 0)

/-- Rust `Node::new_leaf`: a leaf over the digest of a data block. -/
def new_leaf (data : List Nat) : Node := .leaf (hash_data data)

/-- Rust `Node::new_internal`: an internal node whose hash is the digest of the
children's concatenated hashes, left before right. -/
def new_internal (l r : Node) : Node :=
  .internal (hash_data (l.get_hash ++ r.get_hash)) l r

/-- Rust `enum MerkleTreeError`: the library's only error kind. -/
inductive MerkleTreeError where
  | ProofGenerationFailed
deriving DecidableEq, Repr

instance : DecidableEq (Except MerkleTreeError (List (List Nat × Bool))) :=
  fun x y =>
    match x, y with
    | .ok a, .ok b => decidable_of_iff (a = b) (by simp)
    | .error a, .error b => decidable_of_iff (a = b) (by simp)
    | .ok _, .error _ => isFalse (by simp)
    | .error _, .ok _ => isFalse (by simp)

/-! ## TreeBuilder (`MerkleTree::build_tree`, `From<Vec<&[u8]>>`) -/

/-- One pass of the `for chunk in nodes.chunks(2)` loop: adjacent nodes are
combined left-to-right; a trailing unpaired node is combined with
`Node::default()`. -/
def buildLevel : List Node → List Node
  | [] => []
  | [a] => [new_internal a defaultNode]
  | a :: b :: rest => new_internal a b :: buildLevel rest

/-- Each pass halves the level, rounding up, exactly as
`(nodes.len() + 1) / 2`. -/
theorem buildLevel_length (ns : List Node) :
    (buildLevel ns).length = (ns.length + 1) / 2 := by
  match ns with
  | [] => rfl
  | [a] => simp [buildLevel]
  | a :: b :: rest =>
      simp only [buildLevel, List.length_cons, buildLevel_length rest]
      omega

/-- The `while nodes.len() > 1` loop, run for at most `fuel` iterations.
Each pass strictly shrinks a level of two or more nodes, so fuel equal to the
initial length always reaches the fixed point (`buildLoop_main` below makes
this precise). -/
def buildLoop : Nat → List Node → List Node
  | 0, ns => ns
  | _ + 1, [] => []
  | _ + 1, [a] => [a]
  | f + 1, a :: b :: rest => buildLoop f (buildLevel (a :: b :: rest))

/-- Rust `MerkleTree::build_tree`: run the level-combining loop to its fixed
point, then pop the root.  The Rust `pop().expect(...)` panics on an empty
vector; the panic is modelled as `none`. -/
def build_tree (ns : List Node) : Option Node :=
  (buildLoop ns.length ns).getLast?

/-- Rust `From<Vec<&[u8]>> for MerkleTree`: map each block to a leaf in input
order, then build. -/
def merkleTreeFrom (blocks : List (List Nat)) : Option Node :=
  build_tree (blocks.map new_leaf)

/-! ## ProofGenerator -/

/-- Rust `MerkleTree::generate_proof_recursive`: depth-first search, left subtree
first; on success the sibling hash and its side are appended on the way back
up, so the proof is in leaf-to-root order.  `false` in the pair means the
sibling is the right child, `true` means it is the left child. -/
def generate_proof_recursive (node : Node) (target : List Nat) :
    Option (List (List Nat × Bool)) :=
  match node with
  | .leaf h => if h = target then some [] else none
  | .internal _ l r =>
      match generate_proof_recursive l target with
      | some p => some (p ++ [(r.get_hash, false)])
      | none =>
          match generate_proof_recursive r target with
          | some p => some (p ++ [(l.get_hash, true)])
          | none => none

/-- Rust `MerkleTree::generate_proof`: hash the data, search, and fail with
`ProofGenerationFailed` when no leaf matches. -/
def generate_proof (t : Node) (data : List Nat) :
    Except MerkleTreeError (List (List Nat × Bool)) :=
  match generate_proof_recursive t (hash_data data) with
  | some p => .ok p
  | none => .error .ProofGenerationFailed

/-! ## ProofVerifier (`MerkleTree::verify_proof`) -/

/-- The `for (sibling_hash, is_left) in proof` loop: fold the path into the
running hash, concatenating the sibling on the stated side. -/
def verifyLoop (cur : List Nat) : List (List Nat × Bool) → List Nat
  | [] => cur
  | (sib, isLeft) :: rest =>
      let combined := if isLeft then sib ++ cur else cur ++ sib
      verifyLoop (hash_data combined) rest

/-- Rust `MerkleTree::verify_proof`: recompute the root from the data's digest and
the path and compare byte-for-byte. -/
def verify_proof (data : List Nat) (proof : List (List Nat × Bool))
    (root_hash : List Nat) : Bool :=
  verifyLoop (hash_data data) proof == root_hash

/-! ## Derived notions used to state the claims -/

/-- The hash stored in the padding node: 32 zero bytes. -/
def zeroHash : List Nat := List.replicate 32 0

/-- The leaf hashes of a tree in left-to-right (depth-first) order. -/
def leafHashes : Node → List (List Nat)
  | .leaf h => [h]
  | .internal _ l r => leafHashes l ++ leafHashes r

/-- The number of leaves of a tree. -/
def numLeaves : Node → Nat
  | .leaf _ => 1
  | .internal _ l r => numLeaves l + numLeaves r

/-- The depth of each leaf, in the same left-to-right order as
`leafHashes`. -/
def leafDepths : Node → List Nat
  | .leaf _ => [0]
  | .internal _ l r => (leafDepths l ++ leafDepths r).map (· + 1)

/-- The sibling path of the `i`-th leaf (left-to-right), in leaf-to-root
order: at each ancestor the sibling's hash, paired with `true` exactly when
the sibling is the left child. -/
def siblingPath : Node → Nat → List (List Nat × Bool)
  | .leaf _, _ => []
  | .internal _ l r, i =>
      if i < numLeaves l then siblingPath l i ++ [(r.get_hash, false)]
      else siblingPath r (i - numLeaves l) ++ [(l.get_hash, true)]

/-- Index of the first entry equal to `target` (the list's length when
absent). -/
def firstIdx (target : List Nat) : List (List Nat) → Nat
  | [] => 0
  | h :: rest => if h = target then 0 else firstIdx target rest + 1

/-- Structural well-formedness: every internal node stores the digest of its
children's concatenated hashes.  Trees produced by the builder satisfy it. -/
def WF : Node → Prop
  | .leaf _ => True
  | .internal h l r => h = hash_data (l.get_hash ++ r.get_hash) ∧ WF l ∧ WF r

/-- The number of `buildLevel` passes the builder performs on a level of
`n` nodes. -/
def steps (n : Nat) : Nat :=
  if n ≤ 1 then 0 else steps ((n + 1) / 2) + 1
termination_by n
decreasing_by omega

/-- Fueled scan of the levels the builder visits, true when one of them has
an odd node count greater than one (the situations in which `buildLevel`
introduces a padding node). -/
def oddLoop : Nat → List Node → Bool
  | 0, _ => false
  | _ + 1, [] => false
  | _ + 1, [_] => false
  | f + 1, a :: b :: rest =>
      (rest.length % 2 == 1) || oddLoop f (buildLevel (a :: b :: rest))

/-- Whether some level encountered during the build has an odd number of
nodes greater than one, i.e. whether a padding node is ever introduced. -/
def oddLevelOccurs (ns : List Node) : Bool := oddLoop ns.length ns

/-! ## The spec-side reading of claim C1: padding with `digest(0^32)`

The claim reads the padding node's hash as the SHA-256 digest *of* the
all-zero 32-byte value.  These definitions build a tree under that policy,
to be compared with the source's builder. -/

/-- Padding node as claim C1 reads it: a leaf whose hash is `digest(0^32)`. -/
def claimPadNode : Node := .leaf (sha256 (List.replicate 32 0))

/-- Variant of `buildLevel` under claim C1's padding policy. -/
def buildLevelClaim : List Node → List Node
  | [] => []
  | [a] => [new_internal a claimPadNode]
  | a :: b :: rest => new_internal a b :: buildLevelClaim rest

/-- Like `buildLevel_length`, `buildLevelClaim` also halves the level, rounding up. -/
theorem buildLevelClaim_length (ns : List Node) :
    (buildLevelClaim ns).length = (ns.length + 1) / 2 := by
  match ns with
  | [] => rfl
  | [a] => simp [buildLevelClaim]
  | a :: b :: rest =>
      simp only [buildLevelClaim, List.length_cons, buildLevelClaim_length rest]
      omega

/-- The level-combining loop under claim C1's padding policy. -/
def buildLoopClaim : Nat → List Node → List Node
  | 0, ns => ns
  | _ + 1, [] => []
  | _ + 1, [a] => [a]
  | f + 1, a :: b :: rest => buildLoopClaim f (buildLevelClaim (a :: b :: rest))

/-- The tree builder under claim C1's padding policy. -/
def build_treeClaim (ns : List Node) : Option Node :=
  (buildLoopClaim ns.length ns).getLast?

/-- Building from blocks under claim C1's padding policy. -/
def merkleTreeFromClaim (blocks : List (List Nat)) : Option Node :=
  build_treeClaim (blocks.map new_leaf)

/-! ## The spec's description of verification (claim C4) -/

/-- Verification as §4.4 of the spec words it: start from `leaf_hash(data)`,
fold each `(sibling_hash, side)` into the running value on the stated side,
and return exact byte equality with the expected root. -/
def verifySpecFold (data : List Nat) (proof : List (List Nat × Bool))
    (expected_root : List Nat) : Bool :=
  (proof.foldl
    (fun cur sp => if sp.2 then hash_data (sp.1 ++ cur) else hash_data (cur ++ sp.1))
    (hash_data data)) == expected_root

/-! ## The concrete blocks of `main` and the tests (claim C8) -/

/-- ASCII bytes of a string. -/
def strBytes (s : String) : List Nat := s.data.map Char.toNat

/-- The three sample blocks hard-coded in `main`. -/
def demoBlocks : List (List Nat) :=
  [strBytes "tx: Alice -> Bob, amount: 10",
   strBytes "tx: Eve -> Frank, amount: 30",
   strBytes "tx: Grace -> Heidi, amount: 40"]

/-- The tree `main` builds over the three sample blocks. -/
def demoTree : Node := (merkleTreeFrom demoBlocks).getD defaultNode

/-- The proof `main` generates for the first sample block. -/
def demoProof : List (List Nat × Bool) :=
  ((generate_proof demoTree (strBytes "tx: Alice -> Bob, amount: 10")).toOption).getD []

/-- A small three-block input used to witness the general theorems. -/
def smallBlocks : List (List Nat) := [[0], [1], [2]]

/-- The tree built over `smallBlocks`. -/
def smallTree : Node := (merkleTreeFrom smallBlocks).getD defaultNode

/-! ## Helper lemmas: the verification fold -/

theorem verifyLoop_append (p q : List (List Nat × Bool)) (cur : List Nat) :
    verifyLoop cur (p ++ q) = verifyLoop (verifyLoop cur p) q := by
  induction p generalizing cur with
  | nil => rfl
  | cons sp rest ih =>
      obtain ⟨sib, isLeft⟩ := sp
      simp only [List.cons_append, verifyLoop]
      exact ih _

theorem verifyLoop_eq_foldl (p : List (List Nat × Bool)) (cur : List Nat) :
    verifyLoop cur p =
      p.foldl
        (fun c sp => if sp.2 then hash_data (sp.1 ++ c) else hash_data (c ++ sp.1))
        cur := by
  induction p generalizing cur with
  | nil => rfl
  | cons sp rest ih =>
      obtain ⟨sib, isLeft⟩ := sp
      cases isLeft <;> simp [verifyLoop, ih]

/-! ## Helper lemmas: first-match indices -/

theorem firstIdx_lt_length {target : List Nat} {l : List (List Nat)}
    (h : target ∈ l) : firstIdx target l < l.length := by
  induction l with
  | nil => cases h
  | cons a rest ih =>
      by_cases ha : a = target
      · simp [firstIdx, ha]
      · rcases List.mem_cons.mp h with h | h
        · exact absurd h.symm ha
        · simpa [firstIdx, ha, List.append_eq] using ih h

theorem firstIdx_append_of_mem {target : List Nat} {l₁ : List (List Nat)}
    (l₂ : List (List Nat)) (h : target ∈ l₁) :
    firstIdx target (l₁ ++ l₂) = firstIdx target l₁ := by
  induction l₁ with
  | nil => cases h
  | cons a rest ih =>
      by_cases ha : a = target
      · simp [firstIdx, ha]
      · rcases List.mem_cons.mp h with h | h
        · exact absurd h.symm ha
        · simp only [List.cons_append, firstIdx, if_neg ha, List.append_eq, ih h]

theorem firstIdx_append_of_not_mem {target : List Nat} {l₁ : List (List Nat)}
    (l₂ : List (List Nat)) (h : target ∉ l₁) :
    firstIdx target (l₁ ++ l₂) = l₁.length + firstIdx target l₂ := by
  induction l₁ with
  | nil => simp [firstIdx]
  | cons a rest ih =>
      have ha : a ≠ target := fun e => h (e ▸ List.mem_cons_self a rest)
      have hr : target ∉ rest := fun e => h (List.mem_cons_of_mem a e)
      simp only [List.cons_append, firstIdx, if_neg ha, List.length_cons,
        List.append_eq]
      rw [ih hr]
      omega

/-! ## Helper lemmas: leaves, depths and sibling paths -/

theorem numLeaves_eq_length_leafHashes (t : Node) :
    numLeaves t = (leafHashes t).length := by
  induction t with
  | leaf h => rfl
  | internal h l r ihl ihr => simp [numLeaves, leafHashes, ihl, ihr]

theorem numLeaves_eq_length_leafDepths (t : Node) :
    numLeaves t = (leafDepths t).length := by
  induction t with
  | leaf h => rfl
  | internal h l r ihl ihr => simp [numLeaves, leafDepths, ihl, ihr]

theorem siblingPath_length (t : Node) (i : Nat) (hi : i < numLeaves t) :
    (siblingPath t i).length = (leafDepths t).getD i 0 := by
  induction t generalizing i with
  | leaf h => cases i <;> rfl
  | internal h l r ihl ihr =>
      simp only [numLeaves] at hi
      by_cases hil : i < numLeaves l
      · have h1 : i < (leafDepths l).length := by
          rw [← numLeaves_eq_length_leafDepths]; exact hil
        have h2 : i < (List.map (· + 1) (leafDepths l)).length := by
          simpa using h1
        simp only [siblingPath, if_pos hil, List.length_append,
          List.length_cons, List.length_nil, leafDepths, List.map_append,
          ihl i hil]
        rw [List.getD_append _ _ _ _ h2, List.getD_eq_getElem _ _ h2,
          List.getElem_map, List.getD_eq_getElem _ _ h1]
      · have hir : i - numLeaves l < numLeaves r := by omega
        have h1 : i - numLeaves l < (leafDepths r).length := by
          rw [← numLeaves_eq_length_leafDepths]; exact hir
        have hge : (List.map (· + 1) (leafDepths l)).length ≤ i := by
          simp only [List.length_map, ← numLeaves_eq_length_leafDepths]
          omega
        have hlen : i - (List.map (· + 1) (leafDepths l)).length =
            i - numLeaves l := by
          simp only [List.length_map, ← numLeaves_eq_length_leafDepths]
        have h2 : i - numLeaves l < (List.map (· + 1) (leafDepths r)).length := by
          simpa using h1
        simp only [siblingPath, if_neg hil, List.length_append,
          List.length_cons, List.length_nil, leafDepths, List.map_append,
          ihr _ hir]
        rw [List.getD_append_right _ _ _ _ hge, hlen,
          List.getD_eq_getElem _ _ h2, List.getElem_map,
          List.getD_eq_getElem _ _ h1]

/-! ## Helper lemmas: the depth-first proof search -/

theorem gpr_eq_none_iff (t : Node) (target : List Nat) :
    generate_proof_recursive t target = none ↔ target ∉ leafHashes t := by
  induction t with
  | leaf h =>
      by_cases hh : h = target
      · simp [generate_proof_recursive, leafHashes, hh]
      · simp [generate_proof_recursive, leafHashes, hh, Ne.symm hh]
  | internal h l r ihl ihr =>
      simp only [generate_proof_recursive, leafHashes, List.mem_append, not_or]
      rcases hl : generate_proof_recursive l target with _ | pl <;>
        rcases hr : generate_proof_recursive r target with _ | pr <;>
        simp_all

theorem gpr_first (t : Node) (target : List Nat)
    (h : target ∈ leafHashes t) :
    generate_proof_recursive t target =
      some (siblingPath t (firstIdx target (leafHashes t))) := by
  induction t with
  | leaf hh =>
      simp only [leafHashes, List.mem_singleton] at h
      subst h
      simp [generate_proof_recursive, leafHashes, firstIdx, siblingPath]
  | internal hh l r ihl ihr =>
      simp only [leafHashes, List.mem_append] at h
      by_cases hml : target ∈ leafHashes l
      · have hidx : firstIdx target (leafHashes l ++ leafHashes r) =
            firstIdx target (leafHashes l) := firstIdx_append_of_mem _ hml
        have hlt : firstIdx target (leafHashes l) < numLeaves l := by
          rw [numLeaves_eq_length_leafHashes]; exact firstIdx_lt_length hml
        simp [generate_proof_recursive, ihl hml, leafHashes, siblingPath,
          hidx, hlt]
      · have hmr : target ∈ leafHashes r := h.resolve_left hml
        have hnone : generate_proof_recursive l target = none :=
          (gpr_eq_none_iff l target).mpr hml
        have hidx : firstIdx target (leafHashes l ++ leafHashes r) =
            (leafHashes l).length + firstIdx target (leafHashes r) :=
          firstIdx_append_of_not_mem _ hml
        have hnlt : ¬ (leafHashes l).length + firstIdx target (leafHashes r) <
            numLeaves l := by
          rw [numLeaves_eq_length_leafHashes]; omega
        have hsub : (leafHashes l).length + firstIdx target (leafHashes r) -
            numLeaves l = firstIdx target (leafHashes r) := by
          rw [numLeaves_eq_length_leafHashes]; omega
        simp [generate_proof_recursive, hnone, ihr hmr, leafHashes, siblingPath,
          hidx, hnlt, hsub]

/-! ## Helper lemmas: recomputing the root along a generated path -/

theorem verifyLoop_gpr (t : Node) (target : List Nat)
    (p : List (List Nat × Bool)) (hwf : WF t)
    (hp : generate_proof_recursive t target = some p) :
    verifyLoop target p = t.get_hash := by
  induction t generalizing p with
  | leaf h =>
      by_cases hh : h = target
      · simp only [generate_proof_recursive, if_pos hh, Option.some.injEq] at hp
        subst hp
        simp [verifyLoop, Node.get_hash, hh]
      · simp [generate_proof_recursive, hh] at hp
  | internal h l r ihl ihr =>
      obtain ⟨hh, hwl, hwr⟩ := hwf
      simp only [generate_proof_recursive] at hp
      rcases hl : generate_proof_recursive l target with _ | pl
      · rcases hr : generate_proof_recursive r target with _ | pr
        · simp [hl, hr] at hp
        · simp only [hl, hr, Option.some.injEq] at hp
          subst hp
          rw [verifyLoop_append, ihr pr hwr hr]
          simp [verifyLoop, Node.get_hash, hh]
      · simp only [hl, Option.some.injEq] at hp
        subst hp
        rw [verifyLoop_append, ihl pl hwl hl]
        simp [verifyLoop, Node.get_hash, hh]

/-! ## Helper lemmas: one pass of the level-building loop -/

theorem WF_new_internal {a b : Node} (ha : WF a) (hb : WF b) :
    WF (new_internal a b) := ⟨rfl, ha, hb⟩

theorem WF_buildLevel : ∀ (ns : List Node), (∀ n ∈ ns, WF n) →
    ∀ n ∈ buildLevel ns, WF n
  | [], _, n, hn => by cases hn
  | [a], h, n, hn => by
      simp only [buildLevel, List.mem_singleton] at hn
      subst hn
      exact WF_new_internal (h a (by simp)) trivial
  | a :: b :: rest, h, n, hn => by
      simp only [buildLevel, List.mem_cons] at hn
      rcases hn with hn | hn
      · subst hn
        exact WF_new_internal (h a (by simp)) (h b (by simp))
      · exact WF_buildLevel rest (fun m hm => h m (by simp [hm])) n hn

theorem leafHashes_buildLevel : ∀ (ns : List Node),
    ((buildLevel ns).map leafHashes).flatten =
      (ns.map leafHashes).flatten ++
        (if ns.length % 2 = 1 then [zeroHash] else [])
  | [] => by simp [buildLevel]
  | [a] => by simp [buildLevel, new_internal, leafHashes, defaultNode, zeroHash]
  | a :: b :: rest => by
      have ih := leafHashes_buildLevel rest
      have hpar : (rest.length + 1 + 1) % 2 = rest.length % 2 := by omega
      simp only [buildLevel, List.map_cons, List.flatten_cons, new_internal,
        leafHashes, ih, List.length_cons, hpar, List.append_assoc]

theorem leafDepths_buildLevel : ∀ (ns : List Node),
    ((buildLevel ns).map leafDepths).flatten =
      ((ns.map leafDepths).flatten).map (· + 1) ++
        (if ns.length % 2 = 1 then [1] else [])
  | [] => by simp [buildLevel]
  | [a] => by simp [buildLevel, new_internal, leafDepths, defaultNode]
  | a :: b :: rest => by
      have ih := leafDepths_buildLevel rest
      have hpar : (rest.length + 1 + 1) % 2 = rest.length % 2 := by omega
      simp only [buildLevel, List.map_cons, List.flatten_cons, new_internal,
        leafDepths, ih, List.length_cons, hpar, List.append_assoc,
        List.map_append]

/-! ## Helper lemmas: the iteration count is the ceiling log -/

theorem steps_le_one {n : Nat} (h : n ≤ 1) : steps n = 0 := by
  rw [steps, if_pos h]

theorem steps_ge_two {n : Nat} (h : 2 ≤ n) : steps n = steps ((n + 1) / 2) + 1 := by
  rw [steps, if_neg (by omega)]

theorem steps_eq_clog (n : Nat) : steps n = Nat.clog 2 n := by
  induction n using Nat.strong_induction_on with
  | _ n ih =>
      by_cases h : n ≤ 1
      · interval_cases n
        · simp [steps_le_one]
        · simp [steps_le_one]
      · have h2 : 2 ≤ n := by omega
        rw [steps_ge_two h2, ih ((n + 1) / 2) (by omega),
          Nat.clog_of_two_le (by norm_num) h2]
        norm_num

/-! ## Helper lemmas: the full build loop -/

theorem buildLoop_main : ∀ (f : Nat) (ns : List Node), ns.length ≤ f → ns ≠ [] →
    ∃ t, buildLoop f ns = [t] ∧
      (∃ pads, leafHashes t = (ns.map leafHashes).flatten ++ pads ∧
        ∀ h ∈ pads, h = zeroHash) ∧
      (∃ tail, leafDepths t =
        ((ns.map leafDepths).flatten).map (· + steps ns.length) ++ tail) ∧
      ((∀ n ∈ ns, WF n) → WF t) ∧
      (oddLoop f ns = true → zeroHash ∈ leafHashes t) := by
  intro f
  induction f with
  | zero =>
      intro ns hle hne
      cases ns with
      | nil => exact absurd rfl hne
      | cons a rest => simp at hle
  | succ f ih =>
      intro ns hle hne
      match ns with
      | [t] =>
          refine ⟨t, rfl, ⟨[], by simp, by simp⟩, ⟨[], ?_⟩,
            fun h => h t (by simp), fun h => ?_⟩
          · simp [steps_le_one]
          · simp [oddLoop] at h
      | a :: b :: rest =>
          have hlen2 : (buildLevel (a :: b :: rest)).length =
              (rest.length + 2 + 1) / 2 := by
            rw [buildLevel_length]; simp
          have hlev_ne : buildLevel (a :: b :: rest) ≠ [] := by
            intro he
            rw [he] at hlen2
            simp at hlen2
            omega
          have hlev_le : (buildLevel (a :: b :: rest)).length ≤ f := by
            rw [hlen2]
            simp only [List.length_cons] at hle
            omega
          obtain ⟨t, hbl, ⟨pads, hlh, hpz⟩, ⟨tail, hld⟩, hwf, hodd⟩ :=
            ih (buildLevel (a :: b :: rest)) hlev_le hlev_ne
          have hstep : steps ((a :: b :: rest)).length =
              steps ((buildLevel (a :: b :: rest)).length) + 1 := by
            rw [hlen2]
            simp only [List.length_cons]
            rw [steps_ge_two (by omega)]
          refine ⟨t, by simp [buildLoop, hbl], ?_, ?_, ?_, ?_⟩
          · refine ⟨(if (a :: b :: rest).length % 2 = 1 then [zeroHash] else [])
              ++ pads, ?_, ?_⟩
            · rw [hlh, leafHashes_buildLevel, List.append_assoc]
            · intro h hm
              rcases List.mem_append.mp hm with hm | hm
              · split at hm
                · simpa using hm
                · cases hm
              · exact hpz h hm
          · refine ⟨(List.map (· + steps ((buildLevel (a :: b :: rest)).length))
              (if (a :: b :: rest).length % 2 = 1 then [1] else [])) ++ tail, ?_⟩
            rw [hld, leafDepths_buildLevel, List.map_append, List.append_assoc,
              List.map_map, hstep]
            congr 1
            apply List.map_congr_left
            intro x _
            simp only [Function.comp_apply]
            omega
          · intro h
            exact hwf (WF_buildLevel _ h)
          · intro h
            simp only [oddLoop, Bool.or_eq_true, beq_iff_eq] at h
            rcases h with h | h
            · have hpar : (a :: b :: rest).length % 2 = 1 := by
                simp only [List.length_cons]
                omega
              have hz : zeroHash ∈
                  ((buildLevel (a :: b :: rest)).map leafHashes).flatten := by
                rw [leafHashes_buildLevel, if_pos hpar]
                exact List.mem_append_right _ (by simp)
              rw [hlh]
              exact List.mem_append.mpr (Or.inl hz)
            · exact hodd h

/-- A nonempty level builds to a unique root. -/
theorem build_tree_some {ns : List Node} (hne : ns ≠ []) :
    ∃ t, build_tree ns = some t ∧ buildLoop ns.length ns = [t] := by
  obtain ⟨t, hbl, _⟩ := buildLoop_main ns.length ns le_rfl hne
  exact ⟨t, by simp [build_tree, hbl], hbl⟩

/-- Inversion for `build_tree`: a produced root comes from the loop's
singleton fixed point, and the input was nonempty. -/
theorem build_tree_elim {ns : List Node} {t : Node}
    (h : build_tree ns = some t) : ns ≠ [] ∧ buildLoop ns.length ns = [t] := by
  cases ns with
  | nil => simp [build_tree, buildLoop] at h
  | cons a rest =>
      obtain ⟨t', ht', hbl⟩ := @build_tree_some (a :: rest) (by simp)
      rw [h] at ht'
      obtain rfl : t = t' := by simpa using ht'
      exact ⟨by simp, hbl⟩

/-! ## Helper lemmas: the leaf level produced from the blocks -/

theorem flatten_leafHashes_new_leaf (blocks : List (List Nat)) :
    ((blocks.map new_leaf).map leafHashes).flatten = blocks.map hash_data := by
  induction blocks with
  | nil => rfl
  | cons b rest ih =>
      simp only [List.map_cons, List.flatten_cons, ih, new_leaf, leafHashes,
        List.singleton_append]

theorem flatten_leafDepths_new_leaf (blocks : List (List Nat)) :
    ((blocks.map new_leaf).map leafDepths).flatten =
      List.replicate blocks.length 0 := by
  induction blocks with
  | nil => rfl
  | cons b rest ih =>
      simp only [List.map_cons, List.flatten_cons, ih, new_leaf, leafDepths,
        List.singleton_append, List.length_cons, List.replicate_succ]

theorem WF_new_leaf_level (blocks : List (List Nat)) :
    ∀ n ∈ blocks.map new_leaf, WF n := by
  intro n hn
  obtain ⟨b, _, rfl⟩ := List.mem_map.mp hn
  trivial

/-- Padding an odd level: the builder treats an odd level exactly as the
even level obtained by appending the zero-hash padding node. -/
theorem buildLevel_pad_odd : ∀ (ns : List Node), ns.length % 2 = 1 →
    buildLevel ns = buildLevel (ns ++ [defaultNode])
  | [], h => by simp at h
  | [a], _ => rfl
  | a :: b :: rest, h => by
      have hr : rest.length % 2 = 1 := by
        simp only [List.length_cons] at h
        omega
      simp only [List.cons_append, buildLevel, List.append_eq]
      rw [buildLevel_pad_odd rest hr]

/-! ## The claims -/

/-- Claim C1, as stated, is false on the code: the padding node's hash is
the raw all-zero 32-byte vector (`vec![0; 32]`), not the SHA-256 digest of
an all-zero 32-byte value, and on the concrete three-block input
`smallBlocks` the root produced by the code differs from the root produced
under the digest-padding policy the claim describes. -/
theorem C1_counterexample :
    defaultNode.get_hash ≠ sha256 (List.replicate 32 0) ∧
    (merkleTreeFrom smallBlocks).map Node.get_hash ≠
      (merkleTreeFromClaim smallBlocks).map Node.get_hash := by
  constructor
  · decide
  · decide

/-- Claim C1 (amended): when a level has an odd node count, the final
unpaired node is combined with the fixed padding node whose hash is the raw
all-zero 32-byte vector (not the node duplicated with itself, and not a
digest of the zero vector); the builder behaves on an odd level exactly as
if that padding node were appended, at every level where an odd count
occurs. -/
theorem C1_padding_is_zero_vector (ns : List Node)
    (h : ns.length % 2 = 1) :
    buildLevel ns = buildLevel (ns ++ [defaultNode]) ∧
    defaultNode.get_hash = List.replicate 32 0 :=
  ⟨buildLevel_pad_odd ns h, rfl⟩

/-- Witness for `C1_padding_is_zero_vector` at the one-node level
`[new_leaf [0]]`. -/
theorem C1_witness :
    [new_leaf [0]].length % 2 = 1 ∧
      (buildLevel [new_leaf [0]] = buildLevel ([new_leaf [0]] ++ [defaultNode]) ∧
        defaultNode.get_hash = List.replicate 32 0) :=
  ⟨by decide, C1_padding_is_zero_vector [new_leaf [0]] (by decide)⟩

/-- Claim C2, as stated, is false on the code: building from zero blocks
does not surface a recoverable `EmptyInput` error — the error enumeration
has `ProofGenerationFailed` as its only inhabitant, and the empty build dies
in `pop().expect(...)` (modelled as `none`), producing no tree. -/
theorem C2_counterexample :
    merkleTreeFrom [] = none ∧
      ∀ e : MerkleTreeError, e = MerkleTreeError.ProofGenerationFailed :=
  ⟨rfl, fun e => by cases e; rfl⟩

/-- Claim C2 (amended): for the empty block sequence the build panics on the
`expect` of the empty node vector (modelled as `none`) and produces no tree;
there is no `EmptyInput` error kind in the code. -/
theorem C2_empty_build_no_tree : merkleTreeFrom [] = none := rfl

/-- Claim C3: for every block of a list, building succeeds, proof generation
for that block succeeds, and verification of the block with the returned
proof against the tree's root hash returns `true`. -/
theorem C3_completeness (blocks : List (List Nat)) (b : List Nat)
    (hb : b ∈ blocks) :
    ∃ t p, merkleTreeFrom blocks = some t ∧
      generate_proof t b = Except.ok p ∧
      verify_proof b p t.get_hash = true := by
  have hne : blocks.map new_leaf ≠ [] := by
    cases blocks with
    | nil => cases hb
    | cons x rest => simp
  obtain ⟨t, ht, hbl⟩ := build_tree_some hne
  obtain ⟨t', hbl', ⟨pads, hlh, _⟩, _, hwf, _⟩ :=
    buildLoop_main (blocks.map new_leaf).length (blocks.map new_leaf)
      le_rfl hne
  rw [hbl] at hbl'
  obtain rfl : t = t' := by simpa using hbl'
  have hmem : hash_data b ∈ leafHashes t := by
    rw [hlh, flatten_leafHashes_new_leaf]
    exact List.mem_append_left _ (List.mem_map_of_mem hash_data hb)
  rcases hg : generate_proof_recursive t (hash_data b) with _ | p
  · exact absurd hmem (by simpa using (gpr_eq_none_iff t _).mp hg)
  · refine ⟨t, p, ht, by simp [generate_proof, hg], ?_⟩
    have hv := verifyLoop_gpr t (hash_data b) p
      (hwf (WF_new_leaf_level blocks)) hg
    simp [verify_proof, hv]

/-- Witness for `C3_completeness` on the three-block input `smallBlocks`. -/
theorem C3_witness :
    [0] ∈ smallBlocks ∧
      ∃ t p, merkleTreeFrom smallBlocks = some t ∧
        generate_proof t [0] = Except.ok p ∧
        verify_proof [0] p t.get_hash = true :=
  ⟨by decide, C3_completeness smallBlocks [0] (by decide)⟩

/-- Claim C4: verification is the pure total fold the spec describes —
starting from the data's leaf hash, each `(sibling_hash, side)` pair is
combined on the stated side, and the result is exact byte equality with the
expected root; every outcome is a boolean, never an error. -/
theorem C4_verify_is_spec_fold (data : List Nat)
    (pf : List (List Nat × Bool)) (expected_root : List Nat) :
    verify_proof data pf expected_root = verifySpecFold data pf expected_root ∧
    (verify_proof data pf expected_root = true ↔
      pf.foldl
        (fun cur sp =>
          if sp.2 then hash_data (sp.1 ++ cur) else hash_data (cur ++ sp.1))
        (hash_data data) = expected_root) := by
  constructor
  · simp [verify_proof, verifySpecFold, verifyLoop_eq_foldl]
  · simp [verify_proof, verifyLoop_eq_foldl]

/-- Claim C5: proof generation fails with `ProofGenerationFailed` exactly
when no leaf of the tree carries the queried data's hash, and returns `ok`
exactly when some leaf does. -/
theorem C5_generation_error_iff (t : Node) (data : List Nat) :
    (generate_proof t data = Except.error MerkleTreeError.ProofGenerationFailed
        ↔ hash_data data ∉ leafHashes t) ∧
    ((∃ p, generate_proof t data = Except.ok p)
        ↔ hash_data data ∈ leafHashes t) := by
  rcases hg : generate_proof_recursive t (hash_data data) with _ | p
  · have hm := (gpr_eq_none_iff t _).mp hg
    constructor
    · simp [generate_proof, hg, hm]
    · simp [generate_proof, hg, hm]
  · have hm : hash_data data ∈ leafHashes t := by
      by_contra hmm
      have hn := (gpr_eq_none_iff t _).mpr hmm
      rw [hn] at hg
      cases hg
    constructor
    · simp [generate_proof, hg, hm]
    · simp [generate_proof, hg, hm]

/-- Claim C6: proof generation returns the sibling path, in leaf-to-root
order with sides recorded, of the first leaf in left-to-right depth-first
order whose hash equals the data's leaf hash. -/
theorem C6_first_match_dfs (t : Node) (data : List Nat)
    (h : hash_data data ∈ leafHashes t) :
    generate_proof t data =
      Except.ok (siblingPath t (firstIdx (hash_data data) (leafHashes t))) := by
  simp [generate_proof, gpr_first t _ h]

/-- Witness for `C6_first_match_dfs` on `smallTree` and its first block. -/
theorem C6_witness :
    hash_data [0] ∈ leafHashes smallTree ∧
      generate_proof smallTree [0] =
        Except.ok
          (siblingPath smallTree (firstIdx (hash_data [0]) (leafHashes smallTree))) :=
  ⟨by decide, C6_first_match_dfs smallTree [0] (by decide)⟩

/-- Claim C7: a one-block tree's root is the single leaf itself, its root
hash is the block's leaf hash, and the block verifies against it with the
empty proof list. -/
theorem C7_singleton (b : List Nat) :
    merkleTreeFrom [b] = some (Node.leaf (hash_data b)) ∧
    (Node.leaf (hash_data b)).get_hash = hash_data b ∧
    verify_proof b [] (hash_data b) = true := by
  refine ⟨rfl, rfl, ?_⟩
  simp [verify_proof, verifyLoop]

/-- Claim C8: on the three hard-coded sample blocks, the build yields a
32-byte root, the proof for the first block has exactly two elements, the
first block verifies against the root, and the altered data string
`"tampered data"` does not. -/
theorem C8_concrete_scenario :
    merkleTreeFrom demoBlocks = some demoTree ∧
    demoTree.get_hash.length = 32 ∧
    generate_proof demoTree (strBytes "tx: Alice -> Bob, amount: 10") =
      Except.ok demoProof ∧
    demoProof.length = 2 ∧
    verify_proof (strBytes "tx: Alice -> Bob, amount: 10") demoProof
      demoTree.get_hash = true ∧
    verify_proof (strBytes "tampered data") demoProof
      demoTree.get_hash = false := by
  refine ⟨by decide, by decide, by decide, by decide, by decide, by decide⟩

/-- Claim C9: in a tree built from `N ≥ 1` blocks every original leaf sits
at depth `⌈log₂ N⌉`, and every successfully generated proof for one of the
`N` blocks has exactly `⌈log₂ N⌉` elements. -/
theorem C9_uniform_depth (blocks : List (List Nat)) (t : Node)
    (hne : blocks ≠ []) (ht : merkleTreeFrom blocks = some t) :
    (leafDepths t).take blocks.length =
      List.replicate blocks.length (Nat.clog 2 blocks.length) ∧
    ∀ b ∈ blocks, ∀ p, generate_proof t b = Except.ok p →
      p.length = Nat.clog 2 blocks.length := by
  have hne' : blocks.map new_leaf ≠ [] := by
    cases blocks with
    | nil => exact absurd rfl hne
    | cons x rest => simp
  obtain ⟨_, hbl⟩ := build_tree_elim ht
  obtain ⟨t', hbl', ⟨pads, hlh, _⟩, ⟨tail, hld⟩, _, _⟩ :=
    buildLoop_main (blocks.map new_leaf).length (blocks.map new_leaf)
      le_rfl hne'
  rw [hbl] at hbl'
  obtain rfl : t = t' := by simpa using hbl'
  have hN : (blocks.map new_leaf).length = blocks.length := List.length_map _ _
  have hk : steps (blocks.map new_leaf).length = Nat.clog 2 blocks.length := by
    rw [hN, steps_eq_clog]
  have hld' : leafDepths t =
      List.replicate blocks.length (Nat.clog 2 blocks.length) ++ tail := by
    rw [hld, flatten_leafDepths_new_leaf, hk, List.map_replicate]
    simp
  have hlh' : leafHashes t = blocks.map hash_data ++ pads := by
    rw [hlh, flatten_leafHashes_new_leaf]
  constructor
  · rw [hld']
    exact List.take_left' (by simp)
  · intro b hb p hp
    have hmemL : hash_data b ∈ blocks.map hash_data :=
      List.mem_map_of_mem hash_data hb
    have hmem : hash_data b ∈ leafHashes t := by
      rw [hlh']
      exact List.mem_append_left _ hmemL
    have hgen := gpr_first t (hash_data b) hmem
    have hp' : p = siblingPath t (firstIdx (hash_data b) (leafHashes t)) := by
      simp only [generate_proof, hgen] at hp
      exact (Except.ok.inj hp).symm
    have hidx : firstIdx (hash_data b) (leafHashes t) =
        firstIdx (hash_data b) (blocks.map hash_data) := by
      rw [hlh', firstIdx_append_of_mem _ hmemL]
    have hiltN : firstIdx (hash_data b) (blocks.map hash_data) <
        blocks.length := by
      have := firstIdx_lt_length hmemL
      simpa using this
    have hiltL : firstIdx (hash_data b) (leafHashes t) < numLeaves t := by
      rw [numLeaves_eq_length_leafHashes, hidx, hlh', List.length_append,
        List.length_map]
      omega
    rw [hp', siblingPath_length t _ hiltL, hld', hidx]
    have hrep : firstIdx (hash_data b) (blocks.map hash_data) <
        (List.replicate blocks.length (Nat.clog 2 blocks.length)).length := by
      simpa using hiltN
    rw [List.getD_append _ _ _ _ hrep, List.getD_eq_getElem _ _ hrep,
      List.getElem_replicate]

/-- Witness for `C9_uniform_depth` on the three-block input `smallBlocks`. -/
theorem C9_witness :
    smallBlocks ≠ [] ∧ merkleTreeFrom smallBlocks = some smallTree ∧
      (leafDepths smallTree).take smallBlocks.length =
        List.replicate smallBlocks.length (Nat.clog 2 smallBlocks.length) :=
  ⟨by decide, by decide,
    (C9_uniform_depth smallBlocks smallTree (by decide) (by decide)).1⟩

/-- Claim C10: whenever some level of the build has an odd node count, the
built tree contains an ordinary leaf carrying the raw all-zero 32-byte hash,
and proof generation succeeds for any query data whose digest equals that
all-zero vector. -/
theorem C10_padding_is_ordinary_leaf (blocks : List (List Nat)) (t : Node)
    (ht : merkleTreeFrom blocks = some t)
    (hodd : oddLevelOccurs (blocks.map new_leaf) = true) :
    zeroHash ∈ leafHashes t ∧
      ∀ data, hash_data data = zeroHash →
        ∃ p, generate_proof t data = Except.ok p := by
  obtain ⟨hne, hbl⟩ := build_tree_elim ht
  obtain ⟨t', hbl', _, _, _, hz⟩ :=
    buildLoop_main (blocks.map new_leaf).length (blocks.map new_leaf)
      le_rfl hne
  rw [hbl] at hbl'
  obtain rfl : t = t' := by simpa using hbl'
  have hmem : zeroHash ∈ leafHashes t := hz hodd
  refine ⟨hmem, fun data hd => ?_⟩
  rcases hg : generate_proof_recursive t (hash_data data) with _ | p
  · have := (gpr_eq_none_iff t _).mp hg
    rw [hd] at this
    exact absurd hmem this
  · exact ⟨p, by simp [generate_proof, hg]⟩

/-- Witness for `C10_padding_is_ordinary_leaf` on `smallBlocks`, whose leaf
level has three nodes. -/
theorem C10_witness :
    merkleTreeFrom smallBlocks = some smallTree ∧
      oddLevelOccurs (smallBlocks.map new_leaf) = true ∧
      zeroHash ∈ leafHashes smallTree :=
  ⟨by decide, by decide,
    (C10_padding_is_ordinary_leaf smallBlocks smallTree
      (by decide) (by decide)).1⟩

end Merkling
